import Mathlib

/-!
Verification of the v8-cpu repository: a shallow embedding of the
execution engine (`src/vm.rs`) and the assembler (`src/asm.rs`), with
theorems settling the specification claims about them.

Machine bytes (`u8`) are modelled as `Nat` with explicit `% 256` where
the Rust code wraps; registers are a length-16 `List Nat`, memory a
length-256 `List Nat`, both holding values `< 256` (the well-formedness
predicate `VM.WF`).  The `Vec<Action>` journal is used by the Rust code
purely as a stack (push / pop / last), so it is modelled as a list with
the most recent entry at the head.  Fallible Rust code is modelled with
`Except`; Rust panics (out-of-bounds indexing, `unimplemented!()`) are
modelled as distinguished `StepError` constructors, kept separate from
the one error the Rust `step` actually returns to its caller
(`pcOverflow`, the `anyhow!` program-counter error).
-/

set_option maxRecDepth 100000

deriving instance DecidableEq for Except

namespace V8

/-- Decoded instruction, from `enum Instr` in `src/vm.rs`.  Register
operands and `Const` operands are both plain `Nat`s here. -/
inductive Instr where
  | None
  | LoadFromMemory (reg addr : Nat)
  | LoadWithConstant (reg value : Nat)
  | StoreToMemory (reg addr : Nat)
  | Move (src dst : Nat)
  | AddInt (r0 r1 r2 : Nat)
  | AddFloat (r0 r1 r2 : Nat)
  | Or (r0 r1 r2 : Nat)
  | And (r0 r1 r2 : Nat)
  | Xor (r0 r1 r2 : Nat)
  | Rotate (reg shift : Nat)
  | JumpIfEqual (reg addr : Nat)
  | Halt
  | LoadFromPointer (reg ptr : Nat)
  | StoreToPointer (reg ptr : Nat)
  | JumpIfLess (reg addr : Nat)
deriving DecidableEq, Repr

/-- Low nibble of a byte: `byte & 0xf` in `Instr::new`. -/
def lowNibble (byte : Nat) : Nat := byte &&& 0xf

/-- High nibble of a byte: `(byte >> 4) & 0xf` in `Instr::new`. -/
def highNibble (byte : Nat) : Nat := (byte >>> 4) &&& 0xf

/-- `Instr::new` from `src/vm.rs`, with the `unreachable!()` wildcard arm
modelled as `none` (a Rust panic).  `Instr.new_isSome` below shows that
arm can never be taken. -/
def Instr.new? (i0 i1 : Nat) : Option Instr :=
  match highNibble i0 with
  | 0 => some .None
  | 1 => some (.LoadFromMemory (lowNibble i0) i1)
  | 2 => some (.LoadWithConstant (lowNibble i0) i1)
  | 3 => some (.StoreToMemory (lowNibble i0) i1)
  | 4 => some (.Move (highNibble i1) (lowNibble i1))
  | 5 => some (.AddInt (lowNibble i0) (highNibble i1) (lowNibble i1))
  | 6 => some (.AddFloat (lowNibble i0) (highNibble i1) (lowNibble i1))
  | 7 => some (.Or (lowNibble i0) (highNibble i1) (lowNibble i1))
  | 8 => some (.And (lowNibble i0) (highNibble i1) (lowNibble i1))
  | 9 => some (.Xor (lowNibble i0) (highNibble i1) (lowNibble i1))
  | 10 => some (.Rotate (lowNibble i0) i1)
  | 11 => some (.JumpIfEqual (lowNibble i0) i1)
  | 12 => some .Halt
  | 13 => some (.LoadFromPointer (lowNibble i0) (lowNibble i1))
  | 14 => some (.StoreToPointer (lowNibble i0) (lowNibble i1))
  | 15 => some (.JumpIfLess (lowNibble i0) i1)
  | _ => Option.none

/-- Total decode; the `getD` default is never used (`Instr.new_isSome`). -/
def Instr.new (i0 i1 : Nat) : Instr := (Instr.new? i0 i1).getD .None

/-- Reversible journal entry, from `enum Action` in `src/vm.rs`. -/
inductive Action where
  | None
  | SetReg (reg value : Nat)
  | SetMem (addr value : Nat)
  | Jump (addr : Nat)
deriving DecidableEq, Repr

/-- The VM state, from `struct VM` in `src/vm.rs`.  The journal `actions`
is a stack with the most recent entry first (Rust pushes and pops at the
end of its `Vec`). -/
structure VM where
  regs : List Nat
  memory : List Nat
  pc : Nat
  actions : List Action
deriving DecidableEq, Repr

/-- `VM::new`. -/
def VM.new : VM :=
  { regs := List.replicate 16 0
    memory := List.replicate 256 0
    pc := 0
    actions := [] }

/-- `VM::fill`: `self.memory.fill(0)` followed by
`self.memory[..memory.len()].copy_from_slice(memory)`.  For images
longer than the memory the Rust slice copy would panic; theorems about
`fill` therefore carry `image.length ≤ 256`. -/
def VM.fill (vm : VM) (memory : List Nat) : VM :=
  { vm with memory := memory ++ (List.replicate vm.memory.length 0).drop memory.length }

/-- `VM::execute`: applies an action and returns the inverse action
recording the value that was replaced.  Indexing is total here via
`set` / `getD`; the Rust indices are always in range (register nibbles
`< 16`, byte addresses `< 256`). -/
def VM.execute (vm : VM) : Action → Action × VM
  | .None => (.None, vm)
  | .SetReg reg value =>
      (.SetReg reg (vm.regs.getD reg 0), { vm with regs := vm.regs.set reg value })
  | .SetMem addr value =>
      (.SetMem addr (vm.memory.getD addr 0), { vm with memory := vm.memory.set addr value })
  | .Jump addr => (.Jump vm.pc, { vm with pc := addr })

/-- `VM::redo`: execute an action and push the returned inverse action
onto the journal. -/
def VM.redo (vm : VM) (action : Action) : VM :=
  let (prev, vm') := vm.execute action
  { vm' with actions := prev :: vm'.actions }

/-- `VM::undo`: pop the most recent action (no-op when the journal is
empty), re-execute it, then decrement `pc` by 2.  The Rust `self.pc.0 -= 2`
is `u8` arithmetic; its release-mode wrap-around is modelled by
`(pc + 254) % 256` (it is never reached with `pc < 2` in the scenarios
proved below). -/
def VM.undo (vm : VM) : VM :=
  match vm.actions with
  | [] => vm
  | action :: rest =>
      let vm1 := (({ vm with actions := rest } : VM).execute action).2
      { vm1 with pc := (vm1.pc + 254) % 256 }

/-- `VM::getr`. -/
def VM.getr (vm : VM) (reg : Nat) : Nat := vm.regs.getD reg 0

/-- `VM::load`. -/
def VM.load (vm : VM) (addr : Nat) : Nat := vm.memory.getD addr 0

/-- `VM::reset`: zero registers and pc, clear journal, keep memory. -/
def VM.reset (vm : VM) : VM :=
  { vm with regs := List.replicate vm.regs.length 0, pc := 0, actions := [] }

/-- `VM::dis`: reads `memory[addr]` and `memory[addr + 1]`.  A `none`
result models the Rust index-out-of-bounds panic (only possible at
`addr = 255`, where `memory[256]` is read). -/
def VM.dis (vm : VM) (addr : Nat) : Option Instr :=
  match vm.memory.get? addr, vm.memory.get? (addr + 1) with
  | some i0, some i1 => some (Instr.new i0 i1)
  | _, _ => Option.none

/-- Exceptional outcomes of one `step`.  `pcOverflow` is the only value
the Rust `step` returns as an `Err` to its caller (the
`anyhow!("Program counter exceeded memory bounds (> 256)")` error);
the other two model Rust panics that abort instead of returning:
the out-of-bounds fetch in `dis`, and the `unimplemented!()` wildcard
arm of `exec`. -/
inductive StepError where
  | pcOverflow
  | panicOutOfBounds
  | panicUnimplemented
deriving DecidableEq, Repr

/-- The rotate-right expression from the `Rotate` arm of `VM::exec`:
`(val >> shift) | ((val & ((1 << shift) - 1)) << (8 - shift))` with
`shift` first masked by `& 7`.  When `shift & 7 = 0` the Rust code
shifts the zero `val & 0` left by 8, a `u8` shift overflow; its
release-mode value 0 is what the mathematical expression gives here. -/
def rotateRight8 (val shift : Nat) : Nat :=
  let s := shift &&& 7
  (val >>> s) ||| ((val &&& ((1 <<< s) - 1)) <<< (8 - s))

/-- `VM::exec`: computes the single action of an instruction and `redo`s
it.  `Halt` returns `false` before reaching `redo` (so pushes no journal
entry); the Rust wildcard arm `_ => unimplemented!()`, reached exactly by
`AddFloat`, is the `panicUnimplemented` outcome. -/
def VM.exec (vm : VM) : Instr → Except StepError (Bool × VM)
  | .None => .ok (true, vm.redo .None)
  | .LoadFromMemory reg addr => .ok (true, vm.redo (.SetReg reg (vm.load addr)))
  | .LoadWithConstant reg value => .ok (true, vm.redo (.SetReg reg value))
  | .StoreToMemory reg addr => .ok (true, vm.redo (.SetMem addr (vm.getr reg)))
  | .Move src dst => .ok (true, vm.redo (.SetReg dst (vm.getr src)))
  | .AddInt r0 r1 r2 => .ok (true, vm.redo (.SetReg r0 ((vm.getr r1 + vm.getr r2) % 256)))
  | .AddFloat _ _ _ => .error .panicUnimplemented
  | .Or r0 r1 r2 => .ok (true, vm.redo (.SetReg r0 (vm.getr r1 ||| vm.getr r2)))
  | .And r0 r1 r2 => .ok (true, vm.redo (.SetReg r0 (vm.getr r1 &&& vm.getr r2)))
  | .Xor r0 r1 r2 => .ok (true, vm.redo (.SetReg r0 (vm.getr r1 ^^^ vm.getr r2)))
  | .Rotate reg shift => .ok (true, vm.redo (.SetReg reg (rotateRight8 (vm.getr reg) shift)))
  | .JumpIfEqual reg addr =>
      .ok (true, vm.redo (if vm.getr reg = vm.getr 0 then .Jump addr else .None))
  | .Halt => .ok (false, vm)
  | .LoadFromPointer reg ptr => .ok (true, vm.redo (.SetReg reg (vm.load (vm.getr ptr))))
  | .StoreToPointer reg ptr => .ok (true, vm.redo (.SetMem (vm.getr ptr) (vm.getr reg)))
  | .JumpIfLess reg addr =>
      .ok (true, vm.redo (if vm.getr reg < vm.getr 0 then .Jump addr else .None))

/-- `VM::step`: fetch via `dis` at `pc` (this happens before the bound
check, and panics at `pc = 255`), then `pc.checked_add(2)` — the
program-counter-overflow error when `pc + 2 > 255` — then `exec`. -/
def VM.step (vm : VM) : Except StepError (Bool × VM) :=
  match vm.dis vm.pc with
  | Option.none => .error .panicOutOfBounds
  | some instr =>
      if 255 < vm.pc + 2 then .error .pcOverflow
      else ({ vm with pc := vm.pc + 2 } : VM).exec instr

/-- A run of `n` calls to `step` that all succeed with `Ok(true)`
(no Halt, no error); `none` if any step halts or fails. -/
def VM.stepRun : VM → Nat → Option VM
  | vm, 0 => some vm
  | vm, n + 1 =>
      match vm.step with
      | .ok (true, vm') => vm'.stepRun n
      | _ => Option.none

/-- A run of `n` calls to `step` that all return `Ok` (Halt steps count
as successful); `none` if any step fails with an error. -/
def VM.stepOkRun : VM → Nat → Option VM
  | vm, 0 => some vm
  | vm, n + 1 =>
      match vm.step with
      | .ok (_, vm') => vm'.stepOkRun n
      | .error _ => Option.none

/-- `n` successive calls to `undo`. -/
def VM.undoN : VM → Nat → VM
  | vm, 0 => vm
  | vm, n + 1 => vm.undo.undoN n

/-- Well-formed VM state: pc is a byte and all register/memory cells are
bytes.  (List lengths are not needed: all the total `set`/`getD`
accessors behave correctly without them, and every theorem that needs
the lengths obtains them from concrete states.) -/
def VM.WF (vm : VM) : Prop :=
  vm.pc < 256 ∧ (∀ x ∈ vm.regs, x < 256) ∧ ∀ x ∈ vm.memory, x < 256

instance (vm : VM) : Decidable vm.WF := by unfold VM.WF; infer_instance

/-- Constant operands of an instruction that land in `pc` or a state
cell are bytes.  Decoded instructions always satisfy this
(`Instr.new_bounded`). -/
def Instr.Bounded : Instr → Prop
  | .LoadWithConstant _ value => value < 256
  | .JumpIfEqual _ addr => addr < 256
  | .JumpIfLess _ addr => addr < 256
  | _ => True

/-- The value written by an action is a byte. -/
def Action.Bounded : Action → Prop
  | .None => True
  | .SetReg _ value => value < 256
  | .SetMem _ value => value < 256
  | .Jump addr => addr < 256

/-- Modelled from the spec's words, for comparison with `rotateRight8`:
"rotate-right(reg, shift-amount) — shift amount masked to 0–7, circular
rotation within 8 bits": the high `8 - k` bits of the result are the
value shifted right by `k = shift % 8`, the low `k` bits wrap to the
top. -/
def rotateRightSpec (v k : Nat) : Nat :=
  v / 2 ^ (k % 8) + v % 2 ^ (k % 8) * 2 ^ (8 - k % 8)

/-!
The assembler, from `src/asm.rs`.  Source text is modelled as
`List Char` (Rust `&str`), with `String.data` used to feed string
literals in.  Character classification (`is_alphanumeric`,
`is_alphabetic`, `is_whitespace`, `to_ascii_lowercase`) is modelled with
Lean's ASCII `Char` predicates; this agrees with Rust on all ASCII
input, and every claim about the assembler concerns ASCII input only.
-/

/-- `identifier` from `src/asm.rs`. -/
def identifier (ch : Char) : Bool := ch.isAlphanum || ch == '_'

/-- Assembly-time errors, one constructor per `bail!`/parse-error site in
`src/asm.rs` (the human-readable messages and the line-number context are
not modelled). -/
inductive AsmError where
  | bytecodeLimit
  | expectedRegister
  | invalidRegister (got : List Char)
  | numberParse
  | invalidValue (got : List Char)
  | expectedComma
  | invalidLabel (label : List Char)
  | duplicateLabel (label : List Char)
  | labelAtInvalidPosition
  | unknownMnemonic (mnemonic : List Char)
  | unexpectedExtra (rest : List Char)
  | unknownLabel (label : List Char)
  | refOutOfRange
deriving DecidableEq, Repr

/-- An output slot: either a literal byte or an unresolved label
reference (`enum Val` in `src/asm.rs`). -/
inductive Val where
  | Const (v : Nat)
  | Ref (label : List Char)
deriving DecidableEq, Repr

/-- The output buffer (`struct Output`): 256 slots and a write cursor. -/
structure Output where
  mem : List Val
  pos : Nat
deriving DecidableEq, Repr

/-- `Output::new`. -/
def Output.new : Output := { mem := List.replicate 256 (Val.Const 0), pos := 0 }

/-- `Output::push`: fails once the cursor passes slot 255. -/
def Output.push (res : Output) (val : Val) : Except AsmError Output :=
  if 256 ≤ res.pos then .error .bytecodeLimit
  else .ok { mem := res.mem.set res.pos val, pos := res.pos + 1 }

/-- `jo`: `(a << 4) | b` in `u8` arithmetic (the left shift discards the
bits shifted past bit 7, hence the `% 256`). -/
def jo (a b : Nat) : Nat := ((a <<< 4) % 256) ||| b

/-- Value of a single hexadecimal digit, upper or lower case. -/
def hexDigit? (c : Char) : Option Nat :=
  if '0' ≤ c ∧ c ≤ '9' then some (c.toNat - '0'.toNat)
  else if 'a' ≤ c ∧ c ≤ 'f' then some (c.toNat - 'a'.toNat + 10)
  else if 'A' ≤ c ∧ c ≤ 'F' then some (c.toNat - 'A'.toNat + 10)
  else Option.none

/-- Digit-string accumulator for `digits?`. -/
def digitsAux (radix : Nat) : List Char → Nat → Option Nat
  | [], acc => some acc
  | c :: cs, acc =>
      match hexDigit? c with
      | some d => if d < radix then digitsAux radix cs (acc * radix + d) else Option.none
      | Option.none => Option.none

/-- Unsigned digit-string parse in the given radix (2–16), as used by
Rust `from_str_radix` / `str::parse` after sign handling: the string
must be non-empty and consist solely of digits of the radix. -/
def digits? (radix : Nat) (s : List Char) : Option Nat :=
  match s with
  | [] => Option.none
  | _ => digitsAux radix s 0

/-- Signed `i32` parse in the given radix, as `i32::from_str_radix` /
`str::parse::<i32>`: an optional `+`/`-` sign followed by digits, with
the `i32` range bounds.  (The single corner `-2147483648` parses Ok in
Rust and then panics in `getv`'s debug-mode `num.abs()`; here it simply
ends up rejected by `getv`'s range check, an inessential difference in
which error is reported for that one input.) -/
def parseIntRadix? (radix : Nat) : List Char → Option Int
  | '+' :: ds => (digits? radix ds).bind fun n =>
      if n ≤ 2147483647 then some (n : Int) else Option.none
  | '-' :: ds => (digits? radix ds).bind fun n =>
      if n ≤ 2147483648 then some (-(n : Int)) else Option.none
  | ds => (digits? radix ds).bind fun n =>
      if n ≤ 2147483647 then some (n : Int) else Option.none

/-- `getr` from `src/asm.rs`: trim leading whitespace, take the maximal
alphanumeric token, lowercase it, strip the `r`, and parse the remainder
as a hexadecimal `u8`. -/
def getr (s : List Char) : Except AsmError (Nat × List Char) :=
  let s1 := s.dropWhile Char.isWhitespace
  if s1.length < 2 then .error .expectedRegister
  else
    let reg := s1.takeWhile Char.isAlphanum
    let rest := s1.dropWhile Char.isAlphanum
    match reg.map Char.toLower with
    | c :: num =>
        if c = 'r' then
          match digits? 16 num with
          | some v => if v ≤ 255 then .ok (v, rest) else .error (.invalidRegister reg)
          | Option.none => .error (.invalidRegister reg)
        else .error (.invalidRegister reg)
    | [] => .error (.invalidRegister reg)

/-- Release-mode `i32::abs`, used by `getv`'s range check: the single
value `i32::MIN` wraps to itself (`wrapping_abs`; a debug build would
panic there), every other value maps to its ordinary absolute value. -/
def abs32 (num : Int) : Int :=
  if num = -2147483648 then num else (num.natAbs : Int)

/-- The tail of `getv` in `src/asm.rs` once a numeric literal has been
parsed to `num`: `bail!` when `num.abs() > 256`, otherwise emit
`(if num < 0 { 256 + num } else { num }) as u8` — the cast truncates
modulo 256 (two's complement low byte), which is what sends `256` to
byte `0`. -/
def getvByte (num : Int) : Except AsmError Nat :=
  if 256 < abs32 num then .error (.invalidValue [])
  else .ok (((if num < 0 then 256 + num else num) % 256).toNat)

/-- `getv` from `src/asm.rs`: trim, take the token up to whitespace or a
comma, lowercase it; `0x`-prefixed tokens (Rust `strip_prefix("0x")`,
here the `take 2` test) are hexadecimal literals, tokens starting with a
letter or `.` are label references (stored lowercased), anything else
must be a decimal literal. -/
def getv (s : List Char) : Except AsmError (Val × List Char) :=
  let s1 := s.dropWhile Char.isWhitespace
  let val := (s1.takeWhile fun c => !(c.isWhitespace || c == ',')).map Char.toLower
  let rest := s1.dropWhile fun c => !(c.isWhitespace || c == ',')
  if val.take 2 = ['0', 'x'] then
    match parseIntRadix? 16 (val.drop 2) with
    | some num => Except.map (fun b => (Val.Const b, rest)) (getvByte num)
    | Option.none => .error .numberParse
  else
    match val with
    | c :: cs =>
        if c.isAlpha || c == '.' then .ok (.Ref (c :: cs), rest)
        else
          match parseIntRadix? 10 (c :: cs) with
          | some num => Except.map (fun b => (Val.Const b, rest)) (getvByte num)
          | Option.none => .error .numberParse
    | [] => .error .numberParse

/-- `comma` from `src/asm.rs`. -/
def comma (s : List Char) : Except AsmError (List Char) :=
  match s.dropWhile Char.isWhitespace with
  | ',' :: rest => .ok rest
  | _ => .error .expectedComma

/-- `p_rv`: register + value operand pair, two output bytes. -/
def p_rv (s : List Char) (res : Output) (op : Nat) :
    Except AsmError (List Char × Output) := do
  let (reg, s) ← getr s
  let (addr, s) ← getv (← comma s)
  let res ← res.push (.Const (jo op reg))
  let res ← res.push addr
  .ok (s, res)

/-- `p_rrr`: three register operands, two output bytes. -/
def p_rrr (s : List Char) (res : Output) (op : Nat) :
    Except AsmError (List Char × Output) := do
  let (r1, s) ← getr s
  let (r2, s) ← getr (← comma s)
  let (r3, s) ← getr (← comma s)
  let res ← res.push (.Const (jo op r1))
  let res ← res.push (.Const (jo r2 r3))
  .ok (s, res)

/-- `p_rr`: two register operands, two output bytes. -/
def p_rr (s : List Char) (res : Output) (op : Nat) :
    Except AsmError (List Char × Output) := do
  let (r1, s) ← getr s
  let (r2, s) ← getr (← comma s)
  let res ← res.push (.Const (jo op r1))
  let res ← res.push (.Const r2)
  .ok (s, res)

/-- Rust `str::trim` on both ends. -/
def trimChars (s : List Char) : List Char :=
  ((s.dropWhile Char.isWhitespace).reverse.dropWhile Char.isWhitespace).reverse

/-- Label validity from `parse_line`: non-empty; a leading `.` may be
followed by identifier characters, otherwise all characters must be
identifier characters. -/
def validLabel (label : List Char) : Bool :=
  match label with
  | [] => false
  | c :: rest => if c == '.' then rest.all identifier else (c :: rest).all identifier

/-- Unsigned `u8` numeral parse as Rust `u8::from_str_radix` /
`str::parse::<u8>()`: an optional leading `+` (no `-`), then digits of
the radix, value at most 255. -/
def u8Digits? (radix : Nat) (s : List Char) : Except AsmError Nat :=
  let body :=
    match s with
    | '+' :: ds => digits? radix ds
    | ds => digits? radix ds
  match body with
  | some v => if v ≤ 255 then .ok v else .error .numberParse
  | Option.none => .error .numberParse

/-- The `@address` parse inside a label definition: the (lowercased)
text after `@` is a hexadecimal (`0x`-prefixed) or decimal `u8`. -/
def labelAddr? (numRaw : List Char) : Except AsmError Nat :=
  let num := numRaw.map Char.toLower
  if num.take 2 = ['0', 'x'] then u8Digits? 16 (num.drop 2)
  else u8Digits? 10 num

/-- The validity / duplicate / position checks and the actual insertion
of a label definition in `parse_line`.  The label table keeps
definitions in their original spelling; it is an association list, most
recent first, which matches the `HashMap` because duplicates are
rejected. -/
def defineLabel (label after : List Char) (labels : List (List Char × Nat))
    (res : Output) :
    Except AsmError (List (List Char × Nat) × Output × List Char) :=
  if validLabel label = false then .error (.invalidLabel label)
  else if (labels.lookup label).isSome then .error (.duplicateLabel label)
  else if res.pos = 256 then .error .labelAtInvalidPosition
  else .ok ((label, res.pos) :: labels, res, after)

/-- The `if let Some(index) = s.find(':')` block of `parse_line`: an
optional label definition with optional `@address` cursor relocation.
`dropWhile (· != ':')` is empty exactly when the line has no colon;
otherwise its head is the first `:` and its tail is Rust's
`&s[index + 1..]`.  The `@` suffix is split the same way. -/
def labelSection (s : List Char) (labels : List (List Char × Nat)) (res : Output) :
    Except AsmError (List (List Char × Nat) × Output × List Char) :=
  match s.dropWhile (fun c => c != ':') with
  | [] => .ok (labels, res, s)
  | _ :: after =>
      let labelFull := s.takeWhile fun c => c != ':'
      match labelFull.dropWhile (fun c => c != '@') with
      | [] => defineLabel labelFull after labels res
      | _ :: numRaw =>
          match labelAddr? numRaw with
          | .ok addr =>
              defineLabel (labelFull.takeWhile fun c => c != '@') after labels
                { res with pos := addr }
          | .error e => .error e

/-- The literal (case-preserved) label text of a source line: the text
before the first `:` of the trimmed, comment-stripped line, with any
`@address` suffix removed. -/
def labelText (line : List Char) : List Char :=
  ((((trimChars line).takeWhile fun c => c != ';').takeWhile fun c => c != ':').takeWhile
    fun c => c != '@')

/-- The `match mnemonic.to_ascii_lowercase().as_ref()` block of
`parse_line`: one emission rule per mnemonic. -/
def mnemonicDispatch (mnemonic s : List Char) (res : Output) :
    Except AsmError (List Char × Output) :=
  if mnemonic = ("none").data then do
        let res ← res.push (.Const 0x00)
        let res ← res.push (.Const 0x00)
        Except.ok (s, res)
      else if mnemonic = ("loadm").data then p_rv s res 1
      else if mnemonic = ("loadb").data then p_rv s res 2
      else if mnemonic = ("storem").data then p_rv s res 3
      else if mnemonic = ("move").data then do
        let (r1, s) ← getr s
        let (r2, s) ← getr (← comma s)
        let res ← res.push (.Const 0x40)
        let res ← res.push (.Const (jo r2 r1))
        Except.ok (s, res)
      else if mnemonic = ("addi").data then p_rrr s res 5
      else if mnemonic = ("addf").data then p_rrr s res 6
      else if mnemonic = ("or").data then p_rrr s res 7
      else if mnemonic = ("and").data then p_rrr s res 8
      else if mnemonic = ("xor").data then p_rrr s res 9
      else if mnemonic = ("rot").data then p_rv s res 10
      else if mnemonic = ("jump").data then p_rv s res 11
      else if mnemonic = ("halt").data then do
        let res ← res.push (.Const 0xC0)
        let res ← res.push (.Const 0x00)
        Except.ok (s, res)
      else if mnemonic = ("loadp").data then p_rr s res 13
      else if mnemonic = ("storep").data then p_rr s res 14
      else if mnemonic = ("jumpl").data then p_rv s res 15
      else if mnemonic = ("db").data then do
        let (val, s) ← getv s
        let res ← res.push val
        Except.ok (s, res)
      else Except.error (.unknownMnemonic mnemonic)

/-- `parse_line` from `src/asm.rs`: strip comment, handle an optional
label definition (`labelSection`), then dispatch on the lowercased
mnemonic (`mnemonicDispatch`) and reject trailing content. -/
def parse_line (line : List Char) (labels : List (List Char × Nat)) (res : Output) :
    Except AsmError (List (List Char × Nat) × Output) := do
  let s := trimChars line
  let s := s.takeWhile fun c => c != ';'
  let (labels, res, s) ← labelSection s labels res
  let s := s.dropWhile Char.isWhitespace
  if s.isEmpty then .ok (labels, res)
  else
    let mnemonic := (s.takeWhile fun c => !c.isWhitespace).map Char.toLower
    let s := s.dropWhile fun c => !c.isWhitespace
    let (s, res) ← mnemonicDispatch mnemonic s res
    let s := s.dropWhile Char.isWhitespace
    if s.isEmpty then .ok (labels, res) else .error (.unexpectedExtra s)

/-- Rust `code.split('\n')`. -/
def splitNl : List Char → List (List Char)
  | [] => [[]]
  | c :: cs =>
      let r := splitNl cs
      if c == '\n' then [] :: r
      else
        match r with
        | first :: rest => (c :: first) :: rest
        | [] => [[c]]

/-- The per-line fold in `assemble` (Rust `for (i, line) in ...`,
with `line.trim()` applied before `parse_line`). -/
def parseLines : List (List Char) → List (List Char × Nat) → Output →
    Except AsmError (List (List Char × Nat) × Output)
  | [], labels, res => .ok (labels, res)
  | line :: rest, labels, res => do
      let (labels, res) ← parse_line (trimChars line) labels res
      parseLines rest labels res

/-- Reference resolution, the final `map` in `assemble`: split an
optional `+N`/`-N` suffix (first `+`, else first `-`), parse it as a
signed decimal offset, look the name up in the label table, and require
the sum to fit in a byte (`u8::try_from`). -/
def resolveVal (labels : List (List Char × Nat)) : Val → Except AsmError Nat
  | .Const v => .ok v
  | .Ref label =>
      let idx :=
        match label.findIdx? (fun c => c == '+') with
        | some i => some i
        | Option.none => label.findIdx? (fun c => c == '-')
      let (offset?, name) :=
        match idx with
        | some i => (parseIntRadix? 10 (label.drop i), label.take i)
        | Option.none => (some 0, label)
      match offset? with
      | Option.none => .error .numberParse
      | some offset =>
          match labels.lookup name with
          | Option.none => .error (.unknownLabel name)
          | some addr =>
              let v : Int := (addr : Int) + offset
              if v < 0 ∨ 255 < v then .error .refOutOfRange
              else .ok v.toNat

/-- `assemble` from `src/asm.rs`: fold `parse_line` over the lines, then
resolve every slot of the 256-byte image. -/
def assemble (code : List Char) : Except AsmError (List Nat) := do
  let (labels, res) ← parseLines (splitNl code) [] Output.new
  res.mem.mapM (resolveVal labels)

/-! Helper lemmas. -/

theorem set_getD_self (l : List Nat) (i : Nat) : l.set i (l[i]?.getD 0) = l := by
  induction l generalizing i with
  | nil => simp
  | cons x xs ih =>
    cases i with
    | zero => simp
    | succ n => simpa using ih n

theorem getD_lt {l : List Nat} (h : ∀ x ∈ l, x < 256) (i : Nat) : l.getD i 0 < 256 := by
  induction l generalizing i with
  | nil => simp
  | cons x xs ih =>
    cases i with
    | zero => exact h x (by simp)
    | succ n =>
      rw [List.getD_cons_succ]
      exact ih (fun y hy => h y (by simp [hy])) n

theorem set_all_lt {l : List Nat} (h : ∀ x ∈ l, x < 256) {v : Nat} (hv : v < 256)
    (i : Nat) : ∀ x ∈ l.set i v, x < 256 := by
  intro x hx
  rcases List.mem_or_eq_of_mem_set hx with h' | rfl
  · exact h x h'
  · exact hv

theorem or_lt_256 {x y : Nat} (hx : x < 256) (hy : y < 256) : x ||| y < 256 := by
  have h : (2 : Nat) ^ 8 = 256 := by norm_num
  have hx' : x < 2 ^ 8 := by rw [h]; exact hx
  have hy' : y < 2 ^ 8 := by rw [h]; exact hy
  have h2 := Nat.or_lt_two_pow hx' hy'
  rw [h] at h2; exact h2

theorem xor_lt_256 {x y : Nat} (hx : x < 256) (hy : y < 256) : x ^^^ y < 256 := by
  have h : (2 : Nat) ^ 8 = 256 := by norm_num
  have hx' : x < 2 ^ 8 := by rw [h]; exact hx
  have hy' : y < 2 ^ 8 := by rw [h]; exact hy
  have h2 := Nat.xor_lt_two_pow hx' hy'
  rw [h] at h2; exact h2

theorem rotCore_facts : ∀ s' < 8, ∀ v < 256,
    ((v >>> s') ||| ((v &&& ((1 <<< s') - 1)) <<< (8 - s')) < 256 ∧
      (v >>> s') ||| ((v &&& ((1 <<< s') - 1)) <<< (8 - s')) =
        v / 2 ^ s' + v % 2 ^ s' * 2 ^ (8 - s')) := by decide

theorem and7_lt : ∀ s : Nat, s &&& 7 < 8 :=
  fun s => Nat.lt_of_le_of_lt Nat.and_le_right (by omega)

theorem and7_eq_mod (s : Nat) : s &&& 7 = s % 8 := by
  have h := Nat.and_pow_two_sub_one_eq_mod s 3
  norm_num at h
  exact h

theorem rotateRight8_lt {v : Nat} (hv : v < 256) (s : Nat) : rotateRight8 v s < 256 :=
  (rotCore_facts (s &&& 7) (and7_lt s) v hv).1

theorem rotateRight8_eq_spec {v : Nat} (hv : v < 256) (s : Nat) :
    rotateRight8 v s = rotateRightSpec v s := by
  have h := (rotCore_facts (s &&& 7) (and7_lt s) v hv).2
  unfold rotateRight8 rotateRightSpec
  rw [h, and7_eq_mod]

theorem Instr.new_bounded {i0 i1 : Nat} (hb1 : i1 < 256) : (Instr.new i0 i1).Bounded := by
  have h16 : highNibble i0 < 16 := Nat.lt_of_le_of_lt Nat.and_le_right (by omega)
  unfold Instr.new Instr.new?
  have hc : highNibble i0 = 0 ∨ highNibble i0 = 1 ∨ highNibble i0 = 2 ∨
      highNibble i0 = 3 ∨ highNibble i0 = 4 ∨ highNibble i0 = 5 ∨ highNibble i0 = 6 ∨
      highNibble i0 = 7 ∨ highNibble i0 = 8 ∨ highNibble i0 = 9 ∨ highNibble i0 = 10 ∨
      highNibble i0 = 11 ∨ highNibble i0 = 12 ∨ highNibble i0 = 13 ∨ highNibble i0 = 14 ∨
      highNibble i0 = 15 := by omega
  rcases hc with h|h|h|h|h|h|h|h|h|h|h|h|h|h|h|h <;> rw [h] <;>
    simp [Instr.Bounded, hb1]

theorem redo_WF {vm : VM} (hwf : vm.WF) {a : Action} (ha : a.Bounded) :
    (vm.redo a).WF := by
  obtain ⟨hpc, hregs, hmem⟩ := hwf
  cases a with
  | None => exact ⟨hpc, hregs, hmem⟩
  | SetReg r v => exact ⟨hpc, set_all_lt hregs ha r, hmem⟩
  | SetMem a v => exact ⟨hpc, hregs, set_all_lt hmem ha a⟩
  | Jump t => exact ⟨ha, hregs, hmem⟩

theorem exec_WF {vm : VM} {i : Instr} {c : Bool} {vm' : VM}
    (hwf : vm.WF) (hb : i.Bounded) (h : vm.exec i = .ok (c, vm')) : vm'.WF := by
  have hg : ∀ r, vm.getr r < 256 := fun r => getD_lt hwf.2.1 r
  have hl : ∀ a, vm.load a < 256 := fun a => getD_lt hwf.2.2 a
  cases i <;> simp only [VM.exec, Except.ok.injEq, Prod.mk.injEq] at h
  case AddFloat r0 r1 r2 => exact absurd h (by simp)
  case Halt => exact h.2 ▸ hwf
  case None => exact h.2 ▸ redo_WF hwf trivial
  case LoadFromMemory reg addr => exact h.2 ▸ redo_WF hwf (hl addr)
  case LoadWithConstant reg value => exact h.2 ▸ redo_WF hwf hb
  case StoreToMemory reg addr => exact h.2 ▸ redo_WF hwf (hg reg)
  case Move src dst => exact h.2 ▸ redo_WF hwf (hg src)
  case AddInt r0 r1 r2 => exact h.2 ▸ redo_WF hwf (Nat.mod_lt _ (by omega))
  case Or r0 r1 r2 => exact h.2 ▸ redo_WF hwf (or_lt_256 (hg r1) (hg r2))
  case And r0 r1 r2 =>
    exact h.2 ▸ redo_WF hwf (Nat.lt_of_le_of_lt Nat.and_le_left (hg r1))
  case Xor r0 r1 r2 => exact h.2 ▸ redo_WF hwf (xor_lt_256 (hg r1) (hg r2))
  case Rotate reg shift => exact h.2 ▸ redo_WF hwf (rotateRight8_lt (hg reg) shift)
  case JumpIfEqual reg addr =>
    refine h.2 ▸ redo_WF hwf ?_
    split
    · exact hb
    · trivial
  case JumpIfLess reg addr =>
    refine h.2 ▸ redo_WF hwf ?_
    split
    · exact hb
    · trivial
  case LoadFromPointer reg ptr => exact h.2 ▸ redo_WF hwf (hl (vm.getr ptr))
  case StoreToPointer reg ptr => exact h.2 ▸ redo_WF hwf (hg reg)

theorem dis_eq_some {vm : VM} {addr : Nat} {i : Instr} (h : vm.dis addr = some i) :
    ∃ i0 i1, vm.memory.get? addr = some i0 ∧ vm.memory.get? (addr + 1) = some i1 ∧
      i = Instr.new i0 i1 := by
  unfold VM.dis at h
  split at h
  · rename_i i0 i1 h0 h1
    exact ⟨i0, i1, h0, h1, (Option.some.inj h).symm⟩
  · exact absurd h (by simp)

theorem step_ok_elim {vm : VM} {r : Bool × VM} (h : vm.step = .ok r) :
    ∃ i, vm.dis vm.pc = some i ∧ vm.pc + 2 ≤ 255 ∧
      ({ vm with pc := vm.pc + 2 } : VM).exec i = .ok r := by
  unfold VM.step at h
  split at h
  · exact absurd h (by simp)
  · rename_i i hdis
    split at h
    · exact absurd h (by simp)
    · rename_i hpc
      exact ⟨i, hdis, by omega, h⟩

theorem step_WF {vm : VM} {c : Bool} {vm' : VM} (hwf : vm.WF)
    (h : vm.step = .ok (c, vm')) : vm'.WF := by
  obtain ⟨i, hdis, hle, hexec⟩ := step_ok_elim h
  obtain ⟨i0, i1, h0, h1, rfl⟩ := dis_eq_some hdis
  have hb1 : i1 < 256 := hwf.2.2 _ (List.get?_mem h1)
  have hwfadv : ({ vm with pc := vm.pc + 2 } : VM).WF :=
    ⟨by simpa using by omega, hwf.2.1, hwf.2.2⟩
  exact exec_WF hwfadv (Instr.new_bounded hb1) hexec

theorem exec_cases {vm : VM} {i : Instr} {c : Bool} {vm' : VM}
    (h : vm.exec i = .ok (c, vm')) :
    (c = true ∧ ∃ a, vm' = vm.redo a) ∨ (c = false ∧ vm' = vm) := by
  cases i <;> simp only [VM.exec, Except.ok.injEq, Prod.mk.injEq] at h
  case AddFloat r0 r1 r2 => exact absurd h (by simp)
  case Halt => exact Or.inr ⟨h.1.symm, h.2.symm⟩
  all_goals exact Or.inl ⟨h.1.symm, ⟨_, h.2.symm⟩⟩

theorem redo_undo (vm : VM) (a : Action) :
    (vm.redo a).undo = { vm with pc := (vm.pc + 254) % 256 } := by
  cases a <;> simp [VM.redo, VM.execute, VM.undo, set_getD_self]

theorem step_undo {vm vm' : VM} (hpc : vm.pc < 256)
    (h : vm.step = .ok (true, vm')) : vm'.undo = vm := by
  obtain ⟨i, hdis, hle, hexec⟩ := step_ok_elim h
  rcases exec_cases hexec with ⟨-, a, rfl⟩ | ⟨hc, -⟩
  · rw [redo_undo]
    show ({ vm with pc := (vm.pc + 2 + 254) % 256 } : VM) = vm
    have hm : (vm.pc + 2 + 254) % 256 = vm.pc := by omega
    rw [hm]
  · exact absurd hc (by simp)

theorem undoN_succ (vm : VM) (n : Nat) : vm.undoN (n + 1) = (vm.undoN n).undo := by
  induction n generalizing vm with
  | zero => rfl
  | succ n ih =>
    show vm.undo.undoN (n + 1) = (vm.undo.undoN n).undo
    exact ih vm.undo

theorem redo_actions (vm : VM) (a : Action) :
    (vm.redo a).actions = ((vm.execute a).1) :: vm.actions := by
  cases a <;> rfl

theorem steps_undo {n : Nat} {vm vm' : VM} (hwf : vm.WF)
    (h : vm.stepRun n = some vm') : vm'.undoN n = vm := by
  induction n generalizing vm with
  | zero => cases h; rfl
  | succ n ih =>
    unfold VM.stepRun at h
    split at h
    · rename_i vm1 hstep
      rw [undoN_succ, ih (step_WF hwf hstep) h, step_undo hwf.1 hstep]
    · exact absurd h (by simp)

theorem drop_replicate (n k : Nat) :
    (List.replicate n (0 : Nat)).drop k = List.replicate (n - k) 0 := by
  induction k generalizing n with
  | zero => simp
  | succ k ih =>
    cases n with
    | zero => simp
    | succ n =>
      rw [List.replicate_succ, List.drop_succ_cons, Nat.succ_sub_succ]
      exact ih n

theorem char_le_iff {a b : Char} : a ≤ b ↔ a.toNat ≤ b.toNat := Iff.rfl

theorem char_eq_iff {c d : Char} : c = d ↔ c.toNat = d.toNat :=
  ⟨fun h => h ▸ rfl, fun h => Char.ext (UInt32.ext h)⟩

theorem char_toNat_ofNat {n : Nat} (h : n < 55296) : (Char.ofNat n).toNat = n := by
  have hv : n.isValidChar := Or.inl h
  rw [Char.ofNat, dif_pos hv]
  rfl

theorem toLower_toNat (c : Char) :
    (Char.toLower c).toNat =
      if 65 ≤ c.toNat ∧ c.toNat ≤ 90 then c.toNat + 32 else c.toNat := by
  by_cases hc : 65 ≤ c.toNat ∧ c.toNat ≤ 90
  · have h1 : Char.toLower c = Char.ofNat (c.toNat + 32) := by
      show (if c.toNat ≥ 65 ∧ c.toNat ≤ 90 then Char.ofNat (c.toNat + 32) else c) = _
      rw [if_pos hc]
    rw [if_pos hc, h1, char_toNat_ofNat (by omega)]
  · have h1 : Char.toLower c = c := by
      show (if c.toNat ≥ 65 ∧ c.toNat ≤ 90 then Char.ofNat (c.toNat + 32) else c) = _
      rw [if_neg hc]
    rw [if_neg hc, h1]

theorem toLower_toNat_not_upper (c : Char) :
    ¬(65 ≤ (Char.toLower c).toNat ∧ (Char.toLower c).toNat ≤ 90) := by
  rw [toLower_toNat]
  split <;> omega

theorem toLower_eq_r_iff (c : Char) : Char.toLower c = 'r' ↔ c = 'r' ∨ c = 'R' := by
  have hr : ('r').toNat = 114 := by decide
  have hR : ('R').toNat = 82 := by decide
  constructor
  · intro h
    have hn : (Char.toLower c).toNat = 114 := by rw [h]; exact hr
    rw [toLower_toNat] at hn
    by_cases hc : 65 ≤ c.toNat ∧ c.toNat ≤ 90
    · rw [if_pos hc] at hn
      exact Or.inr (char_eq_iff.mpr (by omega))
    · rw [if_neg hc] at hn
      exact Or.inl (char_eq_iff.mpr (by omega))
  · rintro (rfl | rfl) <;> decide

theorem hexDigit?_lt {c : Char} {d : Nat} (h : hexDigit? c = some d) : d < 16 := by
  have h0 : ('0').toNat = 48 := by decide
  have h9 : ('9').toNat = 57 := by decide
  have ha : ('a').toNat = 97 := by decide
  have hf : ('f').toNat = 102 := by decide
  have hA : ('A').toNat = 65 := by decide
  have hF : ('F').toNat = 70 := by decide
  unfold hexDigit? at h
  split at h
  · rename_i hc
    simp only [char_le_iff] at hc
    cases h
    omega
  · split at h
    · rename_i hc
      simp only [char_le_iff] at hc
      cases h
      omega
    · split at h
      · rename_i hc
        simp only [char_le_iff] at hc
        cases h
        omega
      · exact absurd h (by simp)

theorem digitsAux_isSome_iff (num : List Char) (acc : Nat) :
    (∃ v, digitsAux 16 num acc = some v) ↔ ∀ c ∈ num, (hexDigit? c).isSome = true := by
  induction num generalizing acc with
  | nil => simp [digitsAux]
  | cons c cs ih =>
    unfold digitsAux
    rcases hc : hexDigit? c with - | d
    · simp [hc]
    · have hd : d < 16 := hexDigit?_lt hc
      simp [hc, hd, ih]

theorem digits?_isSome_iff (num : List Char) :
    (∃ v, digits? 16 num = some v) ↔
      num ≠ [] ∧ ∀ c ∈ num, (hexDigit? c).isSome = true := by
  cases num with
  | nil => simp [digits?]
  | cons c cs =>
    show (∃ v, digitsAux 16 (c :: cs) 0 = some v) ↔ _
    rw [digitsAux_isSome_iff]
    simp

theorem getr_ok_iff (s : List Char) (v : Nat) (rest : List Char) :
    getr s = .ok (v, rest) ↔
      2 ≤ (s.dropWhile Char.isWhitespace).length ∧
      rest = (s.dropWhile Char.isWhitespace).dropWhile Char.isAlphanum ∧
      ∃ c num, (s.dropWhile Char.isWhitespace).takeWhile Char.isAlphanum = c :: num ∧
        (c = 'r' ∨ c = 'R') ∧ digits? 16 (num.map Char.toLower) = some v ∧ v ≤ 255 := by
  constructor
  · intro h
    simp only [getr] at h
    split at h
    · exact absurd h (by simp)
    · rename_i hlen
      split at h
      · rename_i c' num' hmap
        split at h
        · rename_i hc'
          split at h
          · rename_i w hw
            split at h
            · rename_i hle
              simp only [Except.ok.injEq, Prod.mk.injEq] at h
              obtain ⟨rfl, hrest⟩ := h
              rcases hreg : (s.dropWhile Char.isWhitespace).takeWhile Char.isAlphanum with
                - | ⟨c0, t⟩
              · rw [hreg] at hmap
                exact absurd hmap (by simp)
              · rw [hreg, List.map_cons] at hmap
                injection hmap with hc0 hnum
                refine ⟨by omega, hrest.symm, c0, t, rfl,
                  (toLower_eq_r_iff c0).mp (hc0.trans hc'), ?_, hle⟩
                rw [hnum]
                exact hw
            · exact absurd h (by simp)
          · exact absurd h (by simp)
        · exact absurd h (by simp)
      · exact absurd h (by simp)
  · rintro ⟨h2, hrest, c0, t, hreg, hc0, hdig, hle⟩
    have hlen2 : ¬((s.dropWhile Char.isWhitespace).length < 2) := by omega
    have hlow : Char.toLower c0 = 'r' := (toLower_eq_r_iff c0).mpr hc0
    simp only [getr]
    simp [hlen2, hreg, hlow, hdig, hle, hrest]

theorem getv_ref_lowercased {s label rest : List Char}
    (h : getv s = .ok (.Ref label, rest)) :
    label = ((s.dropWhile Char.isWhitespace).takeWhile fun c =>
      !(c.isWhitespace || c == ',')).map Char.toLower := by
  simp only [getv] at h
  split at h
  · split at h
    · rename_i num hnum
      rcases hb : getvByte num with e | b <;> rw [hb] at h <;> simp [Except.map] at h
    · exact absurd h (by simp)
  · split at h
    · rename_i c cs hval
      split at h
      · simp only [Except.ok.injEq, Prod.mk.injEq, Val.Ref.injEq] at h
        rw [← h.1]
        exact hval.symm
      · split at h
        · rename_i num hnum
          rcases hb : getvByte num with e | b <;> rw [hb] at h <;> simp [Except.map] at h
        · exact absurd h (by simp)
    · exact absurd h (by simp)

theorem defineLabel_labels {label after : List Char} {labels : List (List Char × Nat)}
    {res : Output} {out : List (List Char × Nat) × Output × List Char}
    (h : defineLabel label after labels res = .ok out) :
    out.1 = (label, res.pos) :: labels := by
  unfold defineLabel at h
  split at h
  · exact absurd h (by simp)
  · split at h
    · exact absurd h (by simp)
    · split at h
      · exact absurd h (by simp)
      · cases h
        rfl

theorem labelSection_labels {s : List Char} {labels : List (List Char × Nat)}
    {res : Output} {out : List (List Char × Nat) × Output × List Char}
    (h : labelSection s labels res = .ok out) :
    out.1 = labels ∨
      ∃ pos, out.1 =
        ((s.takeWhile fun c => c != ':').takeWhile (fun c => c != '@'), pos) :: labels := by
  simp only [labelSection] at h
  split at h
  · cases h
    exact Or.inl rfl
  · split at h
    · rename_i hAt
      have h3 : ((s.takeWhile fun c => c != ':').takeWhile fun c => c != '@') ++
          ((s.takeWhile fun c => c != ':').dropWhile fun c => c != '@') =
          (s.takeWhile fun c => c != ':') := List.takeWhile_append_dropWhile ..
      rw [hAt, List.append_nil] at h3
      refine Or.inr ⟨res.pos, ?_⟩
      rw [h3]
      exact defineLabel_labels h
    · split at h
      · exact Or.inr ⟨_, defineLabel_labels h⟩
      · exact absurd h (by simp)

theorem parse_line_labels {line : List Char} {labels : List (List Char × Nat)}
    {res : Output} {labels' : List (List Char × Nat)} {res' : Output}
    (h : parse_line line labels res = .ok (labels', res')) :
    labels' = labels ∨ ∃ pos, labels' = (labelText line, pos) :: labels := by
  simp only [parse_line, bind, Except.bind] at h
  split at h
  · exact absurd h (by simp)
  · rename_i out hls
    obtain ⟨labels1, res1, s1⟩ := out
    have hl1 := labelSection_labels hls
    split at h
    · rename_i hemp
      simp only [Except.ok.injEq, Prod.mk.injEq] at h
      rw [← h.1]
      exact hl1
    · split at h
      · exact absurd h (by simp)
      · rename_i val hd
        obtain ⟨s2, res2⟩ := val
        split at h
        · rename_i hemp2
          simp only [Except.ok.injEq, Prod.mk.injEq] at h
          rw [← h.1]
          exact hl1
        · exact absurd h (by simp)

theorem resolveVal_ref_lookup {labels : List (List Char × Nat)} {ref : List Char}
    (hp : ref.findIdx? (fun c => c == '+') = Option.none)
    (hm : ref.findIdx? (fun c => c == '-') = Option.none) :
    (labels.lookup ref = Option.none →
      resolveVal labels (.Ref ref) = .error (.unknownLabel ref)) ∧
    ∀ addr, labels.lookup ref = some addr → addr ≤ 255 →
      resolveVal labels (.Ref ref) = .ok addr := by
  constructor
  · intro hl
    simp only [resolveVal, hp, hm, hl]
  · intro addr hl haddr
    simp only [resolveVal, hp, hm, hl]
    rw [if_neg (by omega)]
    simp

theorem upper_label_not_referencable {name : List Char}
    (hup : ∃ c ∈ name, 65 ≤ c.toNat ∧ c.toNat ≤ 90) :
    ∀ t : List Char, t.map Char.toLower ≠ name := by
  intro t heq
  obtain ⟨c, hc, hrange⟩ := hup
  rw [← heq] at hc
  obtain ⟨x, -, rfl⟩ := List.mem_map.mp hc
  exact toLower_toNat_not_upper x hrange

/-! Fixture states used by the claim theorems and witnesses. -/

/-- The example program of the spec. -/
def exampleSrc : List Char := ("loadb R0, 5\nloadb R1, 3\naddi R2, R0, R1\nhalt").data

/-- The byte image the spec says `exampleSrc` assembles to. -/
def exampleImg : List Nat :=
  [0x20, 0x05, 0x21, 0x03, 0x52, 0x01, 0xC0, 0x00] ++ List.replicate 248 0

/-- A one-instruction `loadb R0, 5` image, loaded. -/
def c1vm : VM := VM.new.fill [0x20, 5]

/-- `c1vm` after its single step. -/
def c1vmAfter : VM := (c1vm.stepRun 1).getD VM.new

/-- A VM whose registers, pc and journal are all away from their initial
values. -/
def c3vm : VM :=
  { regs := (List.replicate 16 0).set 0 5
    memory := List.replicate 256 0
    pc := 4
    actions := [.None] }

/-- A VM about to execute the float-add opcode `0x60 0x12`. -/
def c6vm : VM := VM.new.fill [0x60, 0x12]

/-- A VM with register 0 holding `0xB0`. -/
def c8vm : VM :=
  { regs := (List.replicate 16 0).set 0 0xB0
    memory := List.replicate 256 0
    pc := 0
    actions := [] }

/-! Claim theorems. -/

/-- C1 (amended): for any well-formed VM state and any sequence of N
`step()` calls that all return `Ok(true)` (successful, non-Halt), N
`undo()` calls return the whole state — registers, memory, pc and
journal — bit-for-bit to the pre-sequence state (the journal entry of a
taken jump stores the already-advanced pc, so even undone jumps restore
pc exactly); an `undo()` on an empty journal changes nothing.  The
restriction to non-Halt steps is forced: a Halt step is successful but
pushes no journal entry, so the following `undo` cannot revert it. -/
theorem undo_inverse {vm vm' : VM} {n : Nat} (hwf : vm.WF)
    (hrun : vm.stepRun n = some vm') :
    vm'.undoN n = vm ∧ (vm.actions = [] → vm.undo = vm) := by
  refine ⟨steps_undo hwf hrun, fun he => ?_⟩
  unfold VM.undo
  rw [he]

/-- Witness for `undo_inverse`: one `loadb` step, then one undo. -/
theorem undo_inverse_witness :
    c1vm.WF ∧ c1vm.stepRun 1 = some c1vmAfter ∧ c1vmAfter.undoN 1 = c1vm :=
  ⟨by decide, by decide, (undo_inverse (by decide) (by decide)).1⟩

/-- C1 counterexample: a Halt step is a successful `step()` call
(`Ok(false)`), yet after one such step and one `undo()` the pc is 2, not
the pre-sequence 0 — `exec` pushes no journal entry for Halt, so the
undo finds an empty journal and is a no-op. -/
theorem undo_inverse_counterexample :
    ((VM.new.fill [0xC0, 0]).stepOkRun 1).map (fun v => (v.undoN 1).pc) = some 2 ∧
    (VM.new.fill [0xC0, 0]).pc = 0 := by decide

/-- C2 (amended): a successful step returning `true` pushes exactly one
journal entry and a successful Halt step (`Ok(false)`) pushes none —
`exec` returns `false` for Halt before reaching `redo` — so after N
successful steps the journal holds one entry per non-Halt step; in
particular the four-instruction example program leaves exactly 3 journal
entries after its four steps, not 4. -/
theorem journal_entries :
    (∀ (vm : VM) (c : Bool) (vm' : VM), vm.step = .ok (c, vm') →
      vm'.actions.length = vm.actions.length + (if c then 1 else 0)) ∧
    ((VM.new.fill exampleImg).stepOkRun 4).map (fun v => v.actions.length) = some 3 := by
  constructor
  · intro vm c vm' h
    obtain ⟨i, hdis, hle, hexec⟩ := step_ok_elim h
    rcases exec_cases hexec with ⟨rfl, a, rfl⟩ | ⟨rfl, rfl⟩
    · simp [redo_actions]
    · simp
  · decide

/-- Witness for `journal_entries`: the first step of the example pushes
one entry. -/
theorem journal_entries_witness :
    (VM.new.fill exampleImg).step = .ok (true, c1vmAfter.fill exampleImg) ∧
    (c1vmAfter.fill exampleImg).actions.length =
      (VM.new.fill exampleImg).actions.length + (if true then 1 else 0) :=
  ⟨by decide, journal_entries.1 (VM.new.fill exampleImg) true (c1vmAfter.fill exampleImg)
    (by decide)⟩

/-- C2 counterexample: after the example program's four steps
(`loadb`, `loadb`, `addi`, `halt`) the journal holds 3 entries, not the
4 the claim states — the Halt step pushes nothing. -/
theorem journal_entries_counterexample :
    ((VM.new.fill exampleImg).stepOkRun 4).map (fun v => v.actions.length) = some 3 ∧
    (3 : Nat) ≠ 4 := by decide

/-- C3 (amended): for every image of at most 256 bytes, `fill`
overwrites memory with the image padded with zeros to 256 bytes — and
changes nothing else: registers, pc and the action journal keep their
current (not initial) values.  `VM::fill` only rewrites `self.memory`;
resetting the rest of the state is `reset`'s job and `fill` never calls
it. -/
theorem fill_overwrites_memory_only (vm : VM) (image : List Nat)
    (hlen : vm.memory.length = 256) (him : image.length ≤ 256) :
    (vm.fill image).memory = image ++ List.replicate (256 - image.length) 0 ∧
    (vm.fill image).regs = vm.regs ∧ (vm.fill image).pc = vm.pc ∧
    (vm.fill image).actions = vm.actions := by
  refine ⟨?_, rfl, rfl, rfl⟩
  unfold VM.fill
  rw [hlen, drop_replicate]

/-- Witness for `fill_overwrites_memory_only`, on a state away from the
initial one. -/
theorem fill_overwrites_memory_only_witness :
    c3vm.memory.length = 256 ∧ (c3vm.fill [7]).memory = [7] ++ List.replicate 255 0 ∧
    (c3vm.fill [7]).regs = c3vm.regs :=
  ⟨by decide, (fill_overwrites_memory_only c3vm [7] (by decide) (by decide)).1,
    (fill_overwrites_memory_only c3vm [7] (by decide) (by decide)).2.1⟩

/-- C3 counterexample: `fill` on a VM with dirty registers, pc and
journal leaves all three dirty — none of them returns to its initial
value. -/
theorem fill_counterexample :
    (c3vm.fill []).regs ≠ List.replicate 16 0 ∧ (c3vm.fill []).pc ≠ 0 ∧
    (c3vm.fill []).actions ≠ [] := by decide

/-- C4: the example source assembles to exactly the claimed bytes padded
with zeros to 256, and running it — three `Ok(true)` steps followed by a
step that executes Halt and returns `false` — leaves register 2 holding
8, register 0 holding 5 and register 1 holding 3. -/
theorem example_program_assembles_and_runs :
    assemble exampleSrc = .ok exampleImg ∧
    exampleImg = [0x20, 0x05, 0x21, 0x03, 0x52, 0x01, 0xC0, 0x00] ++ List.replicate 248 0 ∧
    ((VM.new.fill exampleImg).stepRun 3).map
        (fun v => Except.map (fun p => (p.1, p.2.getr 2, p.2.getr 0, p.2.getr 1)) v.step) =
      some (.ok (false, 8, 5, 3)) := by
  refine ⟨by decide, by decide, by decide⟩

/-- C5: the failing input.  At `pc = 254` the step fails with the
program-counter-overflow error as documented, but at `pc = 255` — a
reachable state, as the jump in the last conjunct shows — the fetch
`self.dis(self.pc)` reads `memory[256]` *before* the `checked_add`
bound check runs, so the Rust program panics with an index-out-of-bounds
instead of returning the overflow error. -/
theorem pc_overflow_behavior :
    ({ VM.new with pc := 254 } : VM).step = .error .pcOverflow ∧
    ({ VM.new with pc := 255 } : VM).step = .error .panicOutOfBounds ∧
    StepError.panicOutOfBounds ≠ StepError.pcOverflow ∧
    ((VM.new.fill [0xB0, 0xFF]).stepOkRun 1).map (fun v => (v.pc, v.step)) =
      some (255, .error .panicOutOfBounds) := by decide

/-- C6: decoding is total — `Instr::new` never reaches its
`unreachable!()` arm, for any two input bytes — and a step whose decoded
instruction is the float-add opcode fails with the
unimplemented-instruction outcome (the `unimplemented!()` panic of
`exec`'s wildcard arm) instead of silently advancing as a no-op. -/
theorem decode_total_addfloat_fails :
    (∀ i0 i1 : Nat, (Instr.new? i0 i1).isSome = true) ∧
    ∀ (vm : VM) (r a b : Nat), vm.dis vm.pc = some (.AddFloat r a b) →
      vm.pc + 2 ≤ 255 → vm.step = .error .panicUnimplemented := by
  constructor
  · intro i0 i1
    have h16 : highNibble i0 < 16 := Nat.lt_of_le_of_lt Nat.and_le_right (by omega)
    unfold Instr.new?
    have hc : highNibble i0 = 0 ∨ highNibble i0 = 1 ∨ highNibble i0 = 2 ∨
        highNibble i0 = 3 ∨ highNibble i0 = 4 ∨ highNibble i0 = 5 ∨ highNibble i0 = 6 ∨
        highNibble i0 = 7 ∨ highNibble i0 = 8 ∨ highNibble i0 = 9 ∨ highNibble i0 = 10 ∨
        highNibble i0 = 11 ∨ highNibble i0 = 12 ∨ highNibble i0 = 13 ∨
        highNibble i0 = 14 ∨ highNibble i0 = 15 := by omega
    rcases hc with h|h|h|h|h|h|h|h|h|h|h|h|h|h|h|h <;> rw [h] <;> rfl
  · intro vm r a b hdis hpc
    have hs : vm.step = (if 255 < vm.pc + 2 then Except.error StepError.pcOverflow
        else ({ vm with pc := vm.pc + 2 } : VM).exec (.AddFloat r a b)) := by
      unfold VM.step
      rw [hdis]
    rw [hs, if_neg (by omega)]
    rfl

/-- Witness for `decode_total_addfloat_fails`: the image `0x60 0x12`
decodes to float-add and fails the step. -/
theorem decode_total_addfloat_fails_witness :
    c6vm.dis c6vm.pc = some (.AddFloat 0 1 2) ∧ c6vm.pc + 2 ≤ 255 ∧
    c6vm.step = .error .panicUnimplemented :=
  ⟨by decide, by decide,
    decode_total_addfloat_fails.2 c6vm 0 1 2 (by decide) (by decide)⟩

/-- C8: executing rotate on a register holding a byte value replaces it
with that value circularly rotated right by `shift & 7` bits within 8
bits (`rotateRightSpec`, written from the spec's words); a shift operand
that is a multiple of 8 leaves the value unchanged; and rotating `0xB0`
right by 3 yields `0x16`. -/
theorem rotate_semantics (vm : VM) (reg s : Nat) (hv : vm.getr reg < 256) :
    vm.exec (.Rotate reg s) =
      .ok (true, vm.redo (.SetReg reg (rotateRightSpec (vm.getr reg) s))) ∧
    (s % 8 = 0 → rotateRight8 (vm.getr reg) s = vm.getr reg) ∧
    rotateRight8 0xB0 3 = 0x16 := by
  refine ⟨?_, fun h8 => ?_, by decide⟩
  · show Except.ok (true, vm.redo (.SetReg reg (rotateRight8 (vm.getr reg) s))) =
      Except.ok (true, vm.redo (.SetReg reg (rotateRightSpec (vm.getr reg) s)))
    rw [rotateRight8_eq_spec hv]
  · rw [rotateRight8_eq_spec hv]
    unfold rotateRightSpec
    rw [h8]
    simp [Nat.mod_one]

/-- Witness for `rotate_semantics`: the spec's own example value. -/
theorem rotate_semantics_witness :
    c8vm.getr 0 < 256 ∧
    c8vm.exec (.Rotate 0 3) =
      .ok (true, c8vm.redo (.SetReg 0 (rotateRightSpec (c8vm.getr 0) 3))) :=
  ⟨by decide, (rotate_semantics c8vm 0 3 (by decide)).1⟩

/-- C10: a numeric literal of exactly 256 or exactly −256 is accepted by
`getv` and both emit the byte 0, and for every literal value in
[−256, 256] the emitted byte is the value modulo 256 — the `as u8` cast
truncates 256 to 0 and stores negative values as their 256's
complement. -/
theorem literal_byte_value (v : Int) (h1 : -256 ≤ v) (h2 : v ≤ 256) :
    getvByte v = .ok ((v % 256).toNat) ∧
    getv (("256").data) = .ok (.Const 0, []) ∧
    getv (("-256").data) = .ok (.Const 0, []) := by
  refine ⟨?_, by decide, by decide⟩
  unfold getvByte
  have habs : ¬(256 < abs32 v) := by
    unfold abs32
    split <;> omega
  rw [if_neg habs]
  have h : ((if v < 0 then 256 + v else v) % 256) = v % 256 := by
    split <;> omega
  rw [h]

/-- Witness for `literal_byte_value` at the boundary literal 256. -/
theorem literal_byte_value_witness :
    getvByte 256 = .ok (((256 : Int) % 256).toNat) :=
  (literal_byte_value 256 (by omega) (by omega)).1

/-- C7 (amended): label definitions are recorded in their original
spelling — `parse_line` either leaves the label table unchanged or
inserts exactly the literal pre-colon text of the line (`labelText`,
case preserved) — while `getv` stores every reference token lowercased;
an offset-free reference then resolves exactly by case-sensitive lookup
of that lowercased spelling in the label table: it resolves to the bound
address when the lowercased spelling is a defined label name (with a
byte address) and fails with an unknown-label error otherwise.
Consequently a label containing an uppercase basic-latin letter (a
character with code point in [65, 90]) can never be referenced by any
spelling of itself, while an all-lowercase label is resolvable by
forward, backward, and differently-cased references, as the three
assembled programs show. -/
theorem label_reference_resolution :
    (∀ (s label rest : List Char), getv s = .ok (.Ref label, rest) →
      label = ((s.dropWhile Char.isWhitespace).takeWhile fun c =>
        !(c.isWhitespace || c == ',')).map Char.toLower) ∧
    (∀ (line : List Char) (labels : List (List Char × Nat)) (res : Output)
        (labels' : List (List Char × Nat)) (res' : Output),
      parse_line line labels res = .ok (labels', res') →
      labels' = labels ∨ ∃ pos, labels' = (labelText line, pos) :: labels) ∧
    (∀ (labels : List (List Char × Nat)) (ref : List Char),
      ref.findIdx? (fun c => c == '+') = Option.none →
      ref.findIdx? (fun c => c == '-') = Option.none →
      (labels.lookup ref = Option.none →
        resolveVal labels (.Ref ref) = .error (.unknownLabel ref)) ∧
      ∀ addr, labels.lookup ref = some addr → addr ≤ 255 →
        resolveVal labels (.Ref ref) = .ok addr) ∧
    (∀ name : List Char, (∃ c ∈ name, 65 ≤ c.toNat ∧ c.toNat ≤ 90) →
      ∀ t : List Char, t.map Char.toLower ≠ name) ∧
    assemble (("jump R0, l\nl: halt").data) =
      .ok ([0xB0, 0x02, 0xC0, 0x00] ++ List.replicate 252 0) ∧
    assemble (("l: halt\njump R0, l").data) =
      .ok ([0xC0, 0x00, 0xB0, 0x00] ++ List.replicate 252 0) ∧
    assemble (("l: halt\njump R0, L").data) =
      .ok ([0xC0, 0x00, 0xB0, 0x00] ++ List.replicate 252 0) :=
  ⟨fun s label rest h => getv_ref_lowercased h,
   fun line labels res labels' res' h => parse_line_labels h,
   fun labels ref hp hm => resolveVal_ref_lookup hp hm,
   fun name hup => upper_label_not_referencable hup,
   by decide, by decide, by decide⟩

/-- Witness for `label_reference_resolution`: in a table defining the
label `l` at address 2, the stored reference `l` resolves to 2 and the
stored reference `a` fails with an unknown-label error. -/
theorem label_reference_resolution_witness :
    resolveVal [(['l'], 2)] (.Ref ['l']) = .ok 2 ∧
    resolveVal [(['l'], 2)] (.Ref ['a']) = .error (.unknownLabel ['a']) :=
  ⟨(label_reference_resolution.2.2.1 [(['l'], 2)] ['l'] (by decide) (by decide)).2 2
      (by decide) (by decide),
   (label_reference_resolution.2.2.1 [(['l'], 2)] ['a'] (by decide) (by decide)).1
      (by decide)⟩

/-- C7 counterexample: the label `A`, referenced with exactly the same
characters `A`, does *not* resolve — the reference is stored lowercased
as `a` and lookup in the case-sensitively keyed label table fails. -/
theorem label_case_counterexample :
    assemble (("A: halt\njump R0, A").data) = .error (.unknownLabel ['a']) := by decide

/-- C9 (amended): `getr` accepts a register operand exactly when the
maximal alphanumeric token after optional leading whitespace is `r` or
`R` followed by one or more hexadecimal digits (`digits? 16` succeeds
exactly on non-empty all-hex-digit strings) whose value is at most 255,
and the accepted register index is that value — `u8::from_str_radix`
accepts any number of digits, not just one, so the multi-digit token
`R10` is accepted as register index 16 (with either letter case), not
rejected; every token of any other shape is rejected. -/
theorem register_token_characterization :
    (∀ (s : List Char) (v : Nat) (rest : List Char),
      getr s = .ok (v, rest) ↔
        2 ≤ (s.dropWhile Char.isWhitespace).length ∧
        rest = (s.dropWhile Char.isWhitespace).dropWhile Char.isAlphanum ∧
        ∃ c num, (s.dropWhile Char.isWhitespace).takeWhile Char.isAlphanum = c :: num ∧
          (c = 'r' ∨ c = 'R') ∧ digits? 16 (num.map Char.toLower) = some v ∧ v ≤ 255) ∧
    (∀ num : List Char, (∃ v, digits? 16 num = some v) ↔
      num ≠ [] ∧ ∀ c ∈ num, (hexDigit? c).isSome = true) ∧
    getr (("r10").data) = .ok (16, []) ∧
    getr (("R10, RF").data) = .ok (16, (", RF").data) :=
  ⟨getr_ok_iff, digits?_isSome_iff, by decide, by decide⟩

/-- Witness for `register_token_characterization`: the acceptance
direction of the characterization applied to the token `R10`. -/
theorem register_token_characterization_witness :
    getr (("R10").data) = .ok (16, []) :=
  (register_token_characterization.1 (("R10").data) 16 []).mpr
    ⟨by decide, by decide, 'R', ['1', '0'], by decide, Or.inr rfl, by decide, by decide⟩

/-- C9 counterexample: the multi-digit register token `R10` is accepted
by `getr` (yielding register index 16), not rejected with a
malformed-register error as the claim states. -/
theorem register_R10_counterexample :
    getr (("R10, RF").data) = .ok (16, (", RF").data) := by decide

end V8
